import Mathlib

set_option maxRecDepth 100000

/-!
Verification of the school-reviews engine (subjects, reviews, relevance
votes, and display pagination).

The persistent state is modelled as three relations held in a `DB`
record: `subjects`, `reviews` and `relevance` (vote entries), mirroring
the three SQLAlchemy tables in `database.py`.  Query/session operations
are translated as pure functions on `DB`.  Python strings are modelled
as `String` for the store layer and as `List Char` for the paginator
(where index slicing matters); `str.lower()` is modelled by mapping
`Char.toLower` over the characters.  Autoincrementing primary keys are
modelled with explicit `nextSubjectId` / `nextReviewId` counters, and
`date.today()` is passed in as an opaque `today : Nat` argument.
-/

/-- Python `str.lower()`: lowercase every character. -/
def lowerStr (s : String) : String := ⟨s.data.map Char.toLower⟩

/-- Row of table `school_reviews_subjects`.
Columns: `id` (PK), `shortcut`, `guild_id`, `category`, `name`.
The table carries `UniqueConstraint("shortcut", "guild_id")`. -/
structure Subject where
  id : Nat
  shortcut : String
  guild_id : Nat
  category : String
  name : String
deriving DecidableEq

/-- Row of table `school_reviews_reviews`.
Columns: `id` (PK), `discord_id` (author), `anonym`, `subject`
(foreign key to a subject id), `tier`, `text_review`, `date`.
The extra field `mark` is NOT a mapped column: it records the plain
instance attribute created by the assignment `review.mark = mark` in
the update branch of `Review.add` (the mapped rating column is `tier`).
It exists in the model so that that assignment is visible; it is never
read back and would not be persisted by the original ORM. -/
structure Review where
  id : Nat
  discord_id : Nat
  anonym : Bool
  subject : Nat
  tier : Int
  text_review : String
  date : Nat
  mark : Option Int
deriving DecidableEq

/-- Row of table `school_reviews_relevance` (one vote entry).
Primary key is the pair (`review`, `discord_id`). -/
structure ReviewRelevance where
  discord_id : Nat
  vote : Bool
  review : Nat
deriving DecidableEq

/-- The whole persistent state: the three relations plus the
autoincrement counters for the two integer primary keys. -/
structure DB where
  subjects : List Subject
  reviews : List Review
  relevance : List ReviewRelevance
  nextSubjectId : Nat
  nextReviewId : Nat
deriving DecidableEq

/-! ### SubjectStore (`Subject` static methods) -/

/-- `Subject.get`: `filter_by(guild_id=guild.id, shortcut=abbreviation.lower()).one_or_none()`.
The probe is lowercased; the stored shortcut is compared verbatim.
`one_or_none` is modelled as the first match; the unique constraint on
(`shortcut`, `guild_id`) guarantees at most one row matches, so this
agrees with the source (which raises on several matches). -/
def Subject.get (db : DB) (guild : Nat) (abbreviation : String) : Option Subject :=
  db.subjects.find? fun s => s.guild_id == guild && s.shortcut == lowerStr abbreviation

/-- `Subject.add` (the upsert): looks up `filter_by(guild_id=guild.id,
shortcut=abbreviation)` — note: WITHOUT lowercasing — and either
overwrites `name`/`category` of the found row in place, or inserts a
new row storing `shortcut` exactly as submitted. -/
def Subject.add (db : DB) (guild : Nat) (abbreviation name category : String) : DB :=
  match db.subjects.find? fun s => s.guild_id == guild && s.shortcut == abbreviation with
  | some subject =>
    { db with subjects := db.subjects.map fun s =>
        if s.id == subject.id then { s with name := name, category := category } else s }
  | none =>
    { db with
      subjects := db.subjects ++
        [{ id := db.nextSubjectId, shortcut := abbreviation, guild_id := guild,
           category := category, name := name }],
      nextSubjectId := db.nextSubjectId + 1 }

/-- `Subject.remove`: `query(Subject).filter_by(guild_id=guild.id,
shortcut=abbreviation).delete() > 0`.  This is a bulk table delete: it
removes only the matching `subjects` rows and — exactly as in the
source, where `query(...).delete()` bypasses the ORM-level
`cascade="all, delete"` configured on the `reviews`/`relevance`
relationships — leaves the `reviews` and `relevance` relations
untouched. -/
def Subject.remove (db : DB) (guild : Nat) (abbreviation : String) : DB × Bool :=
  let deleted := db.subjects.filter fun s => s.guild_id == guild && s.shortcut == abbreviation
  ({ db with subjects :=
      db.subjects.filter fun s => !(s.guild_id == guild && s.shortcut == abbreviation) },
   !deleted.isEmpty)

/-! ### VoteLedger (`Review.vote_up` / `vote_down` / `vote_neutral`) -/

/-- Helper for the loop in `vote_up`/`vote_down`: set the `vote` field
of the FIRST entry belonging to review `rid` and voter `uid` (the loop
returns after the first hit; the primary key makes it unique). -/
def setVoteFirst (rid uid : Nat) (v : Bool) : List ReviewRelevance → List ReviewRelevance
  | [] => []
  | e :: rest =>
    if e.review == rid && e.discord_id == uid then { e with vote := v } :: rest
    else e :: setVoteFirst rid uid v rest

/-- `Review.vote_up(self, user)` on the relevance table, with
`rid = self.id` and `uid = user.id`: if the voter already has an entry
on this review set it to `True`, else append a new `True` entry. -/
def vote_up (tbl : List ReviewRelevance) (rid uid : Nat) : List ReviewRelevance :=
  if tbl.any fun e => e.review == rid && e.discord_id == uid then
    setVoteFirst rid uid true tbl
  else
    tbl ++ [{ discord_id := uid, vote := true, review := rid }]

/-- `Review.vote_down(self, user)`: symmetric to `vote_up` with `False`. -/
def vote_down (tbl : List ReviewRelevance) (rid uid : Nat) : List ReviewRelevance :=
  if tbl.any fun e => e.review == rid && e.discord_id == uid then
    setVoteFirst rid uid false tbl
  else
    tbl ++ [{ discord_id := uid, vote := false, review := rid }]

/-- `Review.vote_neutral(self, user)`:
`query(ReviewRelevance).filter_by(discord_id=user.id, review=self.id).delete()` —
a bulk delete of every matching entry. -/
def vote_neutral (tbl : List ReviewRelevance) (rid uid : Nat) : List ReviewRelevance :=
  tbl.filter fun e => !(e.discord_id == uid && e.review == rid)

/-- `self.relevance`: the vote entries related to review `rid`. -/
def relevanceOf (tbl : List ReviewRelevance) (rid : Nat) : List ReviewRelevance :=
  tbl.filter fun e => e.review == rid

/-- `Review.get_positive_votes`: entries of this review with `vote` true. -/
def get_positive_votes (tbl : List ReviewRelevance) (rid : Nat) : Nat :=
  ((relevanceOf tbl rid).filter fun e => e.vote).length

/-- `Review.get_negative_votes`: entries of this review with `vote` false. -/
def get_negative_votes (tbl : List ReviewRelevance) (rid : Nat) : Nat :=
  ((relevanceOf tbl rid).filter fun e => !e.vote).length

/-- The votes recorded for voter `uid` on review `rid` (derived view
used to state per-voter facts; under the primary key it has at most
one element). -/
def votesBy (tbl : List ReviewRelevance) (rid uid : Nat) : List Bool :=
  (tbl.filter fun e => e.review == rid && e.discord_id == uid).map fun e => e.vote

/-! ### ReviewStore (`Review.add` and the module-level validation) -/

/-- The filter of the review lookup in `Review.add` / `Review.remove`:
`Review.subject_object.has(guild_id=guild.id)`, `Review.discord_id == author.id`,
`Review.subject_object.has(shortcut=abbreviation.lower())`.  Each
`has(...)` asks for a related subject row (`s.id == r.subject`)
satisfying the keyword filter. -/
def reviewMatches (db : DB) (guild authorId : Nat) (lowered : String) (r : Review) : Bool :=
  (db.subjects.any fun s => s.id == r.subject && s.guild_id == guild)
    && r.discord_id == authorId
    && (db.subjects.any fun s => s.id == r.subject && s.shortcut == lowered)

/-- `Review.add(guild, author, subject_abbreviation, mark, anonymous, text)`.
Resolves the subject (returning `none` like the `Prevent race condition`
guard when absent), then looks up the author's existing review of that
subject (`one_or_none`, modelled as the first match — the uniqueness
invariant proved below keeps it unique).  If found, the row is updated
in place: the source assigns `review.mark = mark` (a plain attribute —
the mapped column `tier` is left unchanged), `anonym`, `text_review`,
`date`, deletes every relevance entry of the review, and re-sets the
subject relationship.  Otherwise a fresh row is inserted with
`tier = mark`. -/
def Review.add (db : DB) (guild authorId : Nat) (subject_abbreviation : String)
    (mark : Int) (anonymous : Bool) (text : String) (today : Nat) : DB × Option Review :=
  match Subject.get db guild subject_abbreviation with
  | none => (db, none)
  | some subject_object =>
    let lowered := lowerStr subject_abbreviation
    match (db.reviews.filter (reviewMatches db guild authorId lowered)).head? with
    | some review =>
      let review2 :=
        { review with
          mark := some mark, anonym := anonymous, text_review := text,
          date := today, subject := subject_object.id }
      ({ db with
          reviews := db.reviews.map fun r => if r.id == review.id then review2 else r,
          relevance := db.relevance.filter fun e => !(e.review == review.id) },
       some review2)
    | none =>
      let review2 : Review :=
        { id := db.nextReviewId, discord_id := authorId,
          anonym := anonymous, subject := subject_object.id, tier := mark,
          text_review := text, date := today, mark := none }
      ({ db with reviews := db.reviews ++ [review2], nextReviewId := db.nextReviewId + 1 },
       some review2)

/-- The error outcomes distinguished by `Reviews._add_review` (each one
is a distinct user-facing reply in the source). -/
inductive AddError where
  | InvalidTier
  | SubjectNotFound
  | EmptyText
deriving DecidableEq

/-- `Reviews._add_review(ctx, subject, mark, text, anonymous)`: the
validation wrapper around `Review.add`.  Checks, in source order:
`mark < 1 or mark > 5`; subject existence; empty `text`; then calls
`Review.add`.  Failure replies and returns without touching the store. -/
def add_review (db : DB) (guild authorId : Nat) (subject : String)
    (mark : Int) (text : String) (anonymous : Bool) (today : Nat) :
    DB × Except AddError (Option Review) :=
  if mark < 1 ∨ mark > 5 then (db, .error .InvalidTier)
  else match Subject.get db guild subject with
    | none => (db, .error .SubjectNotFound)
    | some _ =>
      if text = "" then (db, .error .EmptyText)
      else
        let res := Review.add db guild authorId subject mark anonymous text today
        (res.1, .ok res.2)

/-! ### Paginator (`module.py`) -/

/-- The embed field limit used by both chunkers (`MAX_LEN = 1024`). -/
def MAX_LEN : Nat := 1024

/-- The separator `", "` used by `_split_subjects`. -/
def sep : List Char := [',', ' ']

/-- `_split_review(review)`: emits `len(review) // maxLen` full slices
`review[i*maxLen : i*maxLen + maxLen]` and, when `len(review) % maxLen`
is nonzero, the trailing remainder slice.  The source reads the module
constant `MAX_LEN`; it is exposed here as the parameter `maxLen`
(instantiated with `MAX_LEN` at the deployed call sites). -/
def split_review (review : List Char) (maxLen : Nat) : List (List Char) :=
  let numberOfFullChunks := review.length / maxLen
  let fullChunks := (List.range numberOfFullChunks).map
    fun i => (review.drop (i * maxLen)).take maxLen
  if review.length % maxLen ≠ 0 then
    fullChunks ++ [review.drop (numberOfFullChunks * maxLen)]
  else
    fullChunks

/-- One loop step of `_split_subjects`: append a shortcut to the
current chunk, prefixing `", "` when the chunk is nonempty
(`if ans[-1]: ans[-1] += ", "` then `ans[-1] += subject.shortcut`). -/
def appendItem (cur shortcut : List Char) : List Char :=
  (if cur ≠ [] then cur ++ sep else cur) ++ shortcut

/-- The loop of `_split_subjects` over the remaining shortcuts.  The
mutable list `ans` is represented as `done ++ [cur]` where `cur` is the
chunk under construction (`ans[-1]`); `ans.append("")` becomes pushing
`cur` onto `done` and restarting from `[]`.  The new-chunk test is the
source's `len(ans[-1]) + len(subject.shortcut) + len(", ") > MAX_LEN` —
the separator length is counted even when the current chunk is empty. -/
def split_subjects_go (maxLen : Nat) (done : List (List Char)) (cur : List Char) :
    List (List Char) → List (List Char)
  | [] => done ++ [cur]
  | shortcut :: rest =>
    if cur.length + shortcut.length + sep.length > maxLen then
      split_subjects_go maxLen (done ++ [cur]) (appendItem [] shortcut) rest
    else
      split_subjects_go maxLen done (appendItem cur shortcut) rest

/-- `_split_subjects(subjects)`: greedy chunking of the subjects'
shortcuts, starting from `ans = [""]`.  Subjects enter only through
their `shortcut` string, so the function is stated on the shortcut
lists directly; the constant `MAX_LEN` is exposed as `maxLen`. -/
def split_subjects (shortcuts : List (List Char)) (maxLen : Nat) : List (List Char) :=
  split_subjects_go maxLen [] [] shortcuts

/-- The string a group of items contributes to a chunk: items joined
by `", "` in order, exactly as the chunk is built up by `appendItem`. -/
def joinSep (gs : List (List Char)) : List Char :=
  gs.foldl appendItem []

/-- Ghost version of the `_split_subjects` loop that keeps each chunk
as the list of items packed into it (instead of the joined string).
Same trigger condition as `split_subjects_go`, stated on the joined
current chunk. -/
def split_subjects_groups_go (maxLen : Nat) (done : List (List (List Char)))
    (cur : List (List Char)) : List (List Char) → List (List (List Char))
  | [] => done ++ [cur]
  | shortcut :: rest =>
    if (joinSep cur).length + shortcut.length + sep.length > maxLen then
      split_subjects_groups_go maxLen (done ++ [cur]) [shortcut] rest
    else
      split_subjects_groups_go maxLen done (cur ++ [shortcut]) rest

/-- The grouping of items into chunks performed by `_split_subjects`. -/
def split_subjects_groups (shortcuts : List (List Char)) (maxLen : Nat) :
    List (List (List Char)) :=
  split_subjects_groups_go maxLen [] [] shortcuts

/-- Modelled from the claim's words (refinement reference, not source
code): greedy packing that "starts a new chunk exactly when appending
the next item (plus separator when the current chunk is non-empty)
would exceed maxLen" — i.e. the separator is NOT counted towards the
limit when the current chunk is empty. -/
def chunkListClaim_go (maxLen : Nat) (done : List (List Char)) (cur : List Char) :
    List (List Char) → List (List Char)
  | [] => done ++ [cur]
  | shortcut :: rest =>
    if (if cur ≠ [] then cur.length + sep.length + shortcut.length
        else shortcut.length) > maxLen then
      chunkListClaim_go maxLen (done ++ [cur]) shortcut rest
    else
      chunkListClaim_go maxLen done (appendItem cur shortcut) rest

/-- Modelled from the claim's words: the whole claim-described chunker. -/
def chunkListClaim (items : List (List Char)) (maxLen : Nat) : List (List Char) :=
  chunkListClaim_go maxLen [] [] items

/-! ### Invariants and operation sequences -/

/-- One invocation of `Review.add` (the guild/author/abbreviation/mark/
anonymous/text arguments plus the day the call happens on). -/
structure AddCall where
  guild : Nat
  author : Nat
  abbreviation : String
  mark : Int
  anonymous : Bool
  text : String
  today : Nat

/-- Run a sequence of `Review.add` calls left to right, keeping the
resulting state each time. -/
def applyAdds (db : DB) (ops : List AddCall) : DB :=
  ops.foldl
    (fun d c => (Review.add d c.guild c.author c.abbreviation c.mark c.anonymous c.text c.today).1)
    db

/-- Database well-formedness of the subjects relation: primary keys
are unique, and the declared `UniqueConstraint("shortcut", "guild_id")`
holds. -/
def subjectsWF (db : DB) : Prop :=
  (db.subjects.map fun s => s.id).Nodup
    ∧ (db.subjects.map fun s => (s.guild_id, s.shortcut)).Nodup

/-- Database well-formedness of the reviews relation: primary keys are
unique and below the autoincrement counter. -/
def reviewIdsWF (db : DB) : Prop :=
  (db.reviews.map fun r => r.id).Nodup ∧ ∀ r ∈ db.reviews, r.id < db.nextReviewId

/-- "At most one review per (author, subject)", as key uniqueness. -/
def atMostOneReviewPer (db : DB) : Prop :=
  (db.reviews.map fun r => (r.discord_id, r.subject)).Nodup

/-- "At most one review per (author, subject)", stated as the claim
words it: for every author `a` and subject id `sid`, at most one
stored review row carries that pair. -/
def UniqueReview (db : DB) : Prop :=
  ∀ a sid : Nat,
    (db.reviews.filter fun r => r.discord_id == a && r.subject == sid).length ≤ 1

/-- The primary key `(review, discord_id)` of the relevance table is
unique (always true of the real store; SQLAlchemy enforces it via
`PrimaryKeyConstraint("review", "discord_id")`). -/
def pkNodup (tbl : List ReviewRelevance) : Prop :=
  (tbl.map fun e => (e.review, e.discord_id)).Nodup

/-! ## Theorems -/

/-! ### C6: `_split_review` round-trip -/

/-- The full chunks of `_split_review` concatenate to a prefix of the
text: the first `n * m` characters. -/
theorem flatten_fullChunks (l : List Char) (m : Nat) :
    ∀ n : Nat,
      ((List.range n).map fun i => (l.drop (i * m)).take m).flatten = l.take (n * m) := by
  intro n
  induction n with
  | zero => simp
  | succ k ih =>
    rw [List.range_succ, List.map_append, List.flatten_append, ih]
    simp only [List.map_cons, List.map_nil, List.flatten_cons, List.flatten_nil,
      List.append_nil]
    rw [Nat.succ_mul, List.take_add]

/-- Every full chunk of `_split_review` has length exactly `m`. -/
theorem mem_fullChunks_length (l : List Char) (m : Nat) (c : List Char)
    (hc : c ∈ (List.range (l.length / m)).map fun i => (l.drop (i * m)).take m) :
    c.length = m := by
  obtain ⟨i, hi, rfl⟩ := List.mem_map.1 hc
  rw [List.mem_range] at hi
  have h1 : i * m + m ≤ l.length / m * m := by
    have := Nat.mul_le_mul_right m hi
    rwa [Nat.succ_mul] at this
  have h2 : l.length / m * m ≤ l.length := Nat.div_mul_le_self _ _
  rw [List.length_take, List.length_drop]
  omega

/-- C6: for every text and `maxLen ≥ 1`, concatenating the chunks of
`_split_review` in order reproduces the text exactly, every chunk
except possibly the last has length exactly `maxLen`, and when the
text length is a multiple of `maxLen` no empty trailing chunk is
produced (every chunk is nonempty). -/
theorem c6_chunk_round_trip (text : List Char) (maxLen : Nat) (hm : 1 ≤ maxLen) :
    (split_review text maxLen).flatten = text
    ∧ (∀ c ∈ (split_review text maxLen).dropLast, c.length = maxLen)
    ∧ (text.length % maxLen = 0 → ∀ c ∈ split_review text maxLen, c ≠ []) := by
  unfold split_review
  by_cases h : text.length % maxLen = 0
  · have hdvd : maxLen ∣ text.length := Nat.dvd_of_mod_eq_zero h
    have hmul : text.length / maxLen * maxLen = text.length := Nat.div_mul_cancel hdvd
    simp only [h, ne_eq, not_true_eq_false, if_false]
    refine ⟨?_, ?_, ?_⟩
    · rw [flatten_fullChunks, hmul, List.take_length]
    · intro c hc
      exact mem_fullChunks_length text maxLen c (List.dropLast_subset _ hc)
    · intro _ c hc
      have := mem_fullChunks_length text maxLen c hc
      intro hnil
      rw [hnil] at this
      simp at this
      omega
  · simp only [h, ne_eq, not_false_eq_true, if_true]
    refine ⟨?_, ?_, ?_⟩
    · rw [List.flatten_append, flatten_fullChunks]
      simp [List.take_append_drop]
    · intro c hc
      rw [List.dropLast_concat] at hc
      exact mem_fullChunks_length text maxLen c hc
    · intro h0
      exact h0.elim

/-- C6 witness: `_split_review` on the five characters `abcde` with
`maxLen = 2` concatenates back to the input. -/
theorem c6_chunk_round_trip_witness :
    1 ≤ 2
    ∧ (split_review ['a', 'b', 'c', 'd', 'e'] 2).flatten = ['a', 'b', 'c', 'd', 'e'] :=
  ⟨by decide, (c6_chunk_round_trip ['a', 'b', 'c', 'd', 'e'] 2 (by decide)).1⟩

/-! ### C7 / C10: `_split_subjects` -/

/-- Appending one item to a group corresponds to `appendItem` on the
joined chunk. -/
theorem joinSep_append_one (gs : List (List Char)) (s : List Char) :
    joinSep (gs ++ [s]) = appendItem (joinSep gs) s := by
  simp [joinSep, List.foldl_append]

/-- The `_split_subjects` loop computes the separator-join of the
groups computed by the ghost loop. -/
theorem split_subjects_go_eq_groups (maxLen : Nat) (rest : List (List Char)) :
    ∀ (gdone : List (List (List Char))) (gcur : List (List Char)),
      split_subjects_go maxLen (gdone.map joinSep) (joinSep gcur) rest
        = (split_subjects_groups_go maxLen gdone gcur rest).map joinSep := by
  induction rest with
  | nil => intro gdone gcur; simp [split_subjects_go, split_subjects_groups_go]
  | cons s r ih =>
    intro gdone gcur
    simp only [split_subjects_go, split_subjects_groups_go]
    by_cases h : (joinSep gcur).length + s.length + sep.length > maxLen
    · rw [if_pos h, if_pos h]
      have h1 : appendItem [] s = joinSep [s] := by simp [joinSep, appendItem]
      have h2 : gdone.map joinSep ++ [joinSep gcur] = (gdone ++ [gcur]).map joinSep := by
        simp
      rw [h1, h2, ih]
    · rw [if_neg h, if_neg h]
      rw [← joinSep_append_one, ih]

/-- The groups produced by the ghost loop flatten back to the input
items, in order. -/
theorem split_subjects_groups_go_flatten (maxLen : Nat) (rest : List (List Char)) :
    ∀ (gdone : List (List (List Char))) (gcur : List (List Char)),
      (split_subjects_groups_go maxLen gdone gcur rest).flatten
        = gdone.flatten ++ gcur ++ rest := by
  induction rest with
  | nil => intro gdone gcur; simp [split_subjects_groups_go]
  | cons s r ih =>
    intro gdone gcur
    simp only [split_subjects_groups_go]
    by_cases h : (joinSep gcur).length + s.length + sep.length > maxLen
    · rw [if_pos h, ih]
      simp
    · rw [if_neg h, ih]
      simp

/-- The length of an `appendItem` step is bounded by the chunk, the
separator and the item. -/
theorem appendItem_length_le (cur s : List Char) :
    (appendItem cur s).length ≤ cur.length + sep.length + s.length := by
  unfold appendItem
  by_cases h : cur ≠ []
  · rw [if_pos h]; simp only [List.length_append]; omega
  · rw [if_neg h]; simp only [List.length_append]; omega

/-- Every chunk built by the `_split_subjects` loop is within the
limit or is a single input item (bound invariant of the loop). -/
theorem split_subjects_go_bound (maxLen : Nat) (items : List (List Char))
    (rest : List (List Char)) :
    ∀ (done : List (List Char)) (cur : List Char),
      (∀ c ∈ done, c.length ≤ maxLen ∨ c ∈ items) →
      (cur.length ≤ maxLen ∨ cur ∈ items) →
      (∀ s ∈ rest, s ∈ items) →
      ∀ c ∈ split_subjects_go maxLen done cur rest, c.length ≤ maxLen ∨ c ∈ items := by
  induction rest with
  | nil =>
    intro done cur hdone hcur _ c hc
    simp only [split_subjects_go] at hc
    rcases List.mem_append.1 hc with h | h
    · exact hdone c h
    · rw [List.mem_singleton] at h
      exact h ▸ hcur
  | cons s r ih =>
    intro done cur hdone hcur hrest c hc
    simp only [split_subjects_go] at hc
    by_cases h : cur.length + s.length + sep.length > maxLen
    · rw [if_pos h] at hc
      refine ih (done ++ [cur]) (appendItem [] s) ?_ ?_ ?_ c hc
      · intro d hd
        rcases List.mem_append.1 hd with h1 | h1
        · exact hdone d h1
        · rw [List.mem_singleton] at h1
          exact h1 ▸ hcur
      · right
        have : appendItem [] s = s := by simp [appendItem]
        rw [this]
        exact hrest s (List.mem_cons_self s r)
      · intro x hx
        exact hrest x (List.mem_cons_of_mem s hx)
    · rw [if_neg h] at hc
      refine ih done (appendItem cur s) hdone ?_ ?_ c hc
      · left
        have := appendItem_length_le cur s
        omega
      · intro x hx
        exact hrest x (List.mem_cons_of_mem s hx)

/-- C7 amended: `_split_subjects` chunks are the separator-joins of a
greedy consecutive grouping of the items — a new chunk starts exactly
when current-chunk length + item length + separator length would
exceed `maxLen`, the separator being counted even into an empty chunk —
the grouping preserves the items and their order exactly (so nothing
is truncated or dropped), and every chunk is within `maxLen` unless it
consists of a single overlong item standing alone. -/
theorem c7_list_chunk_amended (items : List (List Char)) (maxLen : Nat) :
    split_subjects items maxLen = (split_subjects_groups items maxLen).map joinSep
    ∧ (split_subjects_groups items maxLen).flatten = items
    ∧ ∀ c ∈ split_subjects items maxLen, c.length ≤ maxLen ∨ c ∈ items := by
  refine ⟨?_, ?_, ?_⟩
  · have := split_subjects_go_eq_groups maxLen items [] []
    simpa [split_subjects, split_subjects_groups, joinSep] using this
  · simp [split_subjects_groups, split_subjects_groups_go_flatten]
  · intro c hc
    refine split_subjects_go_bound maxLen items items [] [] ?_ ?_ ?_ c hc
    · intro d hd; simp at hd
    · left; simp
    · intro s hs; exact hs

/-- C7 witness: on items `ab`, `cd` with `maxLen = 10` the single
produced chunk `ab, cd` is within the limit. -/
theorem c7_list_chunk_amended_witness :
    ['a', 'b', ',', ' ', 'c', 'd'].length ≤ 10
    ∨ ['a', 'b', ',', ' ', 'c', 'd'] ∈ [['a', 'b'], ['c', 'd']] :=
  (c7_list_chunk_amended [['a', 'b'], ['c', 'd']] 10).2.2
    ['a', 'b', ',', ' ', 'c', 'd'] (by decide)

/-- C7 counterexample: with the deployed `MAX_LEN = 1024`, a single
item of length 1023 fits in an empty chunk by the claim's rule (no
separator needed), yet the source counts the separator and opens a new
chunk, emitting a leading empty chunk: the code's output differs from
the claim-described chunker on this input. -/
theorem c7_list_chunk_counterexample :
    split_subjects [List.replicate 1023 'a'] MAX_LEN
        = [[], List.replicate 1023 'a']
    ∧ chunkListClaim [List.replicate 1023 'a'] MAX_LEN
        = [List.replicate 1023 'a']
    ∧ split_subjects [List.replicate 1023 'a'] MAX_LEN
        ≠ chunkListClaim [List.replicate 1023 'a'] MAX_LEN := by
  have ha : split_subjects [List.replicate 1023 'a'] MAX_LEN
      = [[], List.replicate 1023 'a'] := by rfl
  have hb : chunkListClaim [List.replicate 1023 'a'] MAX_LEN
      = [List.replicate 1023 'a'] := by rfl
  refine ⟨ha, hb, ?_⟩
  rw [ha, hb]
  intro h
  have h2 := congrArg List.length h
  simp only [List.length_cons, List.length_singleton, List.length_nil] at h2
  omega

/-- Chunks already finished by the `_split_subjects` loop pass through
to the output unchanged, in front of whatever the rest produces. -/
theorem split_subjects_go_done (maxLen : Nat) (rest : List (List Char)) :
    ∀ (done : List (List Char)) (cur : List Char),
      split_subjects_go maxLen done cur rest
        = done ++ split_subjects_go maxLen [] cur rest := by
  induction rest with
  | nil => intro done cur; simp [split_subjects_go]
  | cons s r ih =>
    intro done cur
    simp only [split_subjects_go]
    by_cases h : cur.length + s.length + sep.length > maxLen
    · rw [if_pos h, if_pos h, ih (done ++ [cur]), ih ([] ++ [cur])]
      simp
    · rw [if_neg h, if_neg h]
      exact ih done (appendItem cur s)

/-- One `appendItem` step only ever extends the current chunk on the
right. -/
theorem appendItem_extends (cur s : List Char) :
    ∃ t, appendItem cur s = cur ++ t := by
  unfold appendItem
  by_cases h : cur ≠ []
  · exact ⟨sep ++ s, by rw [if_pos h, List.append_assoc]⟩
  · exact ⟨s, by rw [if_neg h]⟩

/-- The first chunk the loop emits starts with the current chunk it
was handed. -/
theorem split_subjects_go_headI_take (maxLen : Nat) (rest : List (List Char)) :
    ∀ cur : List Char,
      (split_subjects_go maxLen [] cur rest).headI.take cur.length = cur := by
  induction rest with
  | nil => intro cur; simp [split_subjects_go, List.take_length]
  | cons s r ih =>
    intro cur
    simp only [split_subjects_go]
    by_cases h : cur.length + s.length + sep.length > maxLen
    · rw [if_pos h, split_subjects_go_done maxLen r ([] ++ [cur])]
      simp [List.take_length]
    · rw [if_neg h]
      obtain ⟨t, ht⟩ := appendItem_extends cur s
      have hih := ih (appendItem cur s)
      rw [ht] at hih
      have hsplit : (split_subjects_go maxLen [] (cur ++ t) r).headI.take cur.length
          = ((split_subjects_go maxLen [] (cur ++ t) r).headI.take
              (cur ++ t).length).take cur.length := by
        rw [List.take_take]
        congr 1
        simp only [List.length_append]
        omega
      rw [ht, hsplit, hih, List.take_left]

/-- C10: `_split_subjects` can emit empty chunks: on an empty item
list it returns exactly one empty chunk, and whenever the first item
(which lands in the initial, empty chunk) satisfies
`len(item) + len(separator) > maxLen`, the output keeps a leading
empty chunk in front of the chunk that starts with that item. -/
theorem c10_empty_chunks (maxLen : Nat) :
    split_subjects [] maxLen = [[]]
    ∧ ∀ (item : List Char) (rest : List (List Char)),
        item.length + sep.length > maxLen →
          split_subjects (item :: rest) maxLen
              = [] :: split_subjects_go maxLen [] item rest
          ∧ (split_subjects_go maxLen [] item rest).headI.take item.length = item := by
  constructor
  · rfl
  · intro item rest h
    constructor
    · show split_subjects_go maxLen [] [] (item :: rest) = _
      simp only [split_subjects_go]
      rw [if_pos (by simp only [List.length_nil]; omega),
        split_subjects_go_done maxLen rest ([] ++ [[]])]
      have : appendItem [] item = item := by simp [appendItem]
      rw [this]
      simp
    · exact split_subjects_go_headI_take maxLen rest item

/-- C10 witness: with `maxLen = 2`, the empty list gives one empty
chunk, and the single item `a` (length 1, `1 + 2 > 2`) is preceded by
a leading empty chunk while its own chunk starts with it. -/
theorem c10_empty_chunks_witness :
    split_subjects [] 2 = [[]]
    ∧ split_subjects [['a']] 2 = [] :: split_subjects_go 2 [] ['a'] []
    ∧ (split_subjects_go 2 [] ['a'] []).headI.take ['a'].length = ['a'] :=
  ⟨(c10_empty_chunks 2).1,
   ((c10_empty_chunks 2).2 ['a'] [] (by decide)).1,
   ((c10_empty_chunks 2).2 ['a'] [] (by decide)).2⟩

/-! ### C9 / C5: vote ledger -/

/-- Setting a voter's vote does not change which entries exist: the
existence test of `vote_up`/`vote_down` is invariant under it. -/
theorem any_setVoteFirst (rid uid : Nat) (v : Bool) :
    ∀ tbl : List ReviewRelevance,
      ((setVoteFirst rid uid v tbl).any fun e => e.review == rid && e.discord_id == uid)
        = tbl.any fun e => e.review == rid && e.discord_id == uid := by
  intro tbl
  induction tbl with
  | nil => rfl
  | cons e rest ih =>
    simp only [setVoteFirst]
    by_cases h : (e.review == rid && e.discord_id == uid) = true
    · rw [if_pos h]
      exact rfl
    · rw [if_neg h]
      simp only [List.any_cons, ih]

/-- Re-setting the same vote value is a no-op. -/
theorem setVoteFirst_idem (rid uid : Nat) (v : Bool) :
    ∀ tbl : List ReviewRelevance,
      setVoteFirst rid uid v (setVoteFirst rid uid v tbl) = setVoteFirst rid uid v tbl := by
  intro tbl
  induction tbl with
  | nil => rfl
  | cons e rest ih =>
    simp only [setVoteFirst]
    by_cases h : (e.review == rid && e.discord_id == uid) = true
    · rw [if_pos h]
      simp only [setVoteFirst]
      rw [if_pos h]
    · rw [if_neg h]
      simp only [setVoteFirst]
      rw [if_neg h, ih]

/-- `setVoteFirst` skips over a prefix that contains no entry of the
voter on the review. -/
theorem setVoteFirst_append_left (rid uid : Nat) (v : Bool) (l2 : List ReviewRelevance) :
    ∀ tbl : List ReviewRelevance,
      (tbl.any fun e => e.review == rid && e.discord_id == uid) = false →
      setVoteFirst rid uid v (tbl ++ l2) = tbl ++ setVoteFirst rid uid v l2 := by
  intro tbl
  induction tbl with
  | nil => intro _; rfl
  | cons e rest ih =>
    intro h
    simp only [List.any_cons, Bool.or_eq_false_iff] at h
    rw [List.cons_append, List.cons_append]
    simp only [setVoteFirst]
    rw [if_neg (by rw [h.1]; exact Bool.false_ne_true), ih h.2]

/-- C9: each of `vote_up`, `vote_down` and `vote_neutral` is
idempotent — running the same operation twice in a row for the same
voter and review leaves the vote-entry table exactly as running it
once. -/
theorem c9_vote_idempotent (tbl : List ReviewRelevance) (rid uid : Nat) :
    vote_up (vote_up tbl rid uid) rid uid = vote_up tbl rid uid
    ∧ vote_down (vote_down tbl rid uid) rid uid = vote_down tbl rid uid
    ∧ vote_neutral (vote_neutral tbl rid uid) rid uid = vote_neutral tbl rid uid := by
  refine ⟨?_, ?_, ?_⟩
  · unfold vote_up
    by_cases h : (tbl.any fun e => e.review == rid && e.discord_id == uid) = true
    · rw [if_pos h, if_pos (by rw [any_setVoteFirst]; exact h), setVoteFirst_idem]
    · rw [if_neg h]
      rw [if_pos (by
        simp only [List.any_append, List.any_cons, List.any_nil]
        simp)]
      rw [setVoteFirst_append_left rid uid true _ tbl (Bool.of_not_eq_true h)]
      simp only [setVoteFirst]
      rw [if_pos (by simp)]
  · unfold vote_down
    by_cases h : (tbl.any fun e => e.review == rid && e.discord_id == uid) = true
    · rw [if_pos h, if_pos (by rw [any_setVoteFirst]; exact h), setVoteFirst_idem]
    · rw [if_neg h]
      rw [if_pos (by
        simp only [List.any_append, List.any_cons, List.any_nil]
        simp)]
      rw [setVoteFirst_append_left rid uid false _ tbl (Bool.of_not_eq_true h)]
      simp only [setVoteFirst]
      rw [if_pos (by simp)]
  · unfold vote_neutral
    rw [List.filter_filter]
    apply List.filter_congr
    intro e _
    rw [Bool.and_self]

/-- Setting the vote of the (unique, by the primary key) entry of
voter `uid` on review `rid` makes that voter's recorded vote `[v]`. -/
theorem votesBy_setVoteFirst (rid uid : Nat) (v : Bool) :
    ∀ tbl : List ReviewRelevance, pkNodup tbl →
      (tbl.any fun e => e.review == rid && e.discord_id == uid) = true →
      votesBy (setVoteFirst rid uid v tbl) rid uid = [v] := by
  intro tbl
  induction tbl with
  | nil => intro _ hany; simp at hany
  | cons e rest ih =>
    intro hpk hany
    rw [pkNodup, List.map_cons, List.nodup_cons] at hpk
    simp only [setVoteFirst]
    by_cases h : (e.review == rid && e.discord_id == uid) = true
    · rw [if_pos h]
      have hkey : e.review = rid ∧ e.discord_id = uid := by
        simpa [Bool.and_eq_true, beq_iff_eq] using h
      rw [votesBy, List.filter_cons_of_pos (by exact h)]
      have hrest : (rest.filter fun x => x.review == rid && x.discord_id == uid) = [] := by
        rw [List.filter_eq_nil_iff]
        intro x hx hcx
        have hxkey : x.review = rid ∧ x.discord_id = uid := by
          simpa [Bool.and_eq_true, beq_iff_eq] using hcx
        exact hpk.1 (by
          rw [show ((e.review, e.discord_id) : Nat × Nat) = (x.review, x.discord_id) by
            rw [hkey.1, hkey.2, hxkey.1, hxkey.2]]
          exact List.mem_map_of_mem (fun y => (y.review, y.discord_id)) hx)
      rw [hrest]
      rfl
    · rw [if_neg h]
      rw [votesBy, List.filter_cons_of_neg (by exact h)]
      have hany2 : (rest.any fun x => x.review == rid && x.discord_id == uid) = true := by
        simp only [List.any_cons] at hany
        rcases Bool.or_eq_true_iff.1 hany with h1 | h1
        · exact absurd h1 h
        · exact h1
      exact ih hpk.2 hany2

/-- A table with no entry for `(rid, uid)` records no vote for that
voter after filtering. -/
theorem votesBy_eq_nil_of_any_false (tbl : List ReviewRelevance) (rid uid : Nat)
    (h : (tbl.any fun e => e.review == rid && e.discord_id == uid) = false) :
    votesBy tbl rid uid = [] := by
  rw [votesBy, List.filter_eq_nil_iff.2 (List.any_eq_false.1 h)]
  rfl

/-- Setting the vote of `(rid, uid)` leaves the entries of every other
`(review, voter)` pair untouched. -/
theorem filter_other_setVoteFirst (rid uid rid2 uid2 : Nat) (v : Bool)
    (hne : ¬(rid2 = rid ∧ uid2 = uid)) :
    ∀ tbl : List ReviewRelevance,
      ((setVoteFirst rid uid v tbl).filter fun e => e.review == rid2 && e.discord_id == uid2)
        = tbl.filter fun e => e.review == rid2 && e.discord_id == uid2 := by
  intro tbl
  induction tbl with
  | nil => rfl
  | cons e rest ih =>
    simp only [setVoteFirst]
    by_cases h : (e.review == rid && e.discord_id == uid) = true
    · rw [if_pos h]
      have he : e.review = rid ∧ e.discord_id = uid := by
        simpa [Bool.and_eq_true, beq_iff_eq] using h
      have hc2 : ¬(e.review == rid2 && e.discord_id == uid2) = true := by
        intro hc
        rw [Bool.and_eq_true, beq_iff_eq, beq_iff_eq] at hc
        exact hne ⟨by rw [← hc.1, he.1], by rw [← hc.2, he.2]⟩
      rw [List.filter_cons_of_neg (by exact hc2), List.filter_cons_of_neg (by exact hc2)]
    · rw [if_neg h]
      by_cases hc : (e.review == rid2 && e.discord_id == uid2) = true
      · rw [List.filter_cons_of_pos (by exact hc), List.filter_cons_of_pos (by exact hc), ih]
      · rw [List.filter_cons_of_neg (by exact hc), List.filter_cons_of_neg (by exact hc), ih]

/-- Deleting the `(rid, uid)` entries leaves the entries of every other
`(review, voter)` pair untouched. -/
theorem filter_other_vote_neutral (rid uid rid2 uid2 : Nat)
    (hne : ¬(rid2 = rid ∧ uid2 = uid)) (tbl : List ReviewRelevance) :
    ((vote_neutral tbl rid uid).filter fun e => e.review == rid2 && e.discord_id == uid2)
      = tbl.filter fun e => e.review == rid2 && e.discord_id == uid2 := by
  rw [vote_neutral, List.filter_filter]
  apply List.filter_congr
  intro e _
  by_cases hc : (e.review == rid2 && e.discord_id == uid2) = true
  · have he : e.review = rid2 ∧ e.discord_id = uid2 := by
      simpa [Bool.and_eq_true, beq_iff_eq] using hc
    have hcp : (e.discord_id == uid && e.review == rid) = false := by
      by_cases h1 : (e.discord_id == uid) = true
      · by_cases h2 : (e.review == rid) = true
        · exact absurd ⟨by rw [← he.1]; exact beq_iff_eq.1 h2,
            by rw [← he.2]; exact beq_iff_eq.1 h1⟩ hne
        · rw [Bool.not_eq_true] at h2
          rw [h2, Bool.and_false]
      · rw [Bool.not_eq_true] at h1
        rw [h1, Bool.false_and]
    rw [hc, hcp]
    rfl
  · rw [Bool.not_eq_true] at hc
    rw [hc, Bool.false_and]

/-- C5: `vote_up` records `true` for the voter (inserting on absence),
`vote_down` records `false`, `vote_neutral` removes the entry and is a
no-op when the voter has none, and each operation leaves every other
`(review, voter)` entry untouched; consequently, on a review with no
votes, up-then-down yields 0 positive and 1 negative vote, and a
subsequent neutral — after the up alone or after the up-down pair —
yields 0/0. -/
theorem c5_vote_transitions (tbl : List ReviewRelevance) (rid uid : Nat)
    (hpk : pkNodup tbl) :
    votesBy (vote_up tbl rid uid) rid uid = [true]
    ∧ votesBy (vote_down tbl rid uid) rid uid = [false]
    ∧ votesBy (vote_neutral tbl rid uid) rid uid = []
    ∧ (votesBy tbl rid uid = [] → vote_neutral tbl rid uid = tbl)
    ∧ (relevanceOf tbl rid = [] →
        get_positive_votes (vote_down (vote_up tbl rid uid) rid uid) rid = 0
        ∧ get_negative_votes (vote_down (vote_up tbl rid uid) rid uid) rid = 1
        ∧ get_positive_votes
            (vote_neutral (vote_down (vote_up tbl rid uid) rid uid) rid uid) rid = 0
        ∧ get_negative_votes
            (vote_neutral (vote_down (vote_up tbl rid uid) rid uid) rid uid) rid = 0
        ∧ get_positive_votes (vote_neutral (vote_up tbl rid uid) rid uid) rid = 0
        ∧ get_negative_votes (vote_neutral (vote_up tbl rid uid) rid uid) rid = 0)
    ∧ ∀ rid2 uid2 : Nat, ¬(rid2 = rid ∧ uid2 = uid) →
        votesBy (vote_up tbl rid uid) rid2 uid2 = votesBy tbl rid2 uid2
        ∧ votesBy (vote_down tbl rid uid) rid2 uid2 = votesBy tbl rid2 uid2
        ∧ votesBy (vote_neutral tbl rid uid) rid2 uid2 = votesBy tbl rid2 uid2 := by
  refine ⟨?_, ?_, ?_, ?_, ?_, ?_⟩
  · rw [vote_up]
    by_cases h : (tbl.any fun e => e.review == rid && e.discord_id == uid) = true
    · rw [if_pos h]
      exact votesBy_setVoteFirst rid uid true tbl hpk h
    · rw [if_neg h]
      rw [votesBy, List.filter_append,
        List.filter_eq_nil_iff.2 (List.any_eq_false.1 (Bool.of_not_eq_true h))]
      simp only [List.nil_append]
      rw [List.filter_cons_of_pos (by simp)]
      rfl
  · rw [vote_down]
    by_cases h : (tbl.any fun e => e.review == rid && e.discord_id == uid) = true
    · rw [if_pos h]
      exact votesBy_setVoteFirst rid uid false tbl hpk h
    · rw [if_neg h]
      rw [votesBy, List.filter_append,
        List.filter_eq_nil_iff.2 (List.any_eq_false.1 (Bool.of_not_eq_true h))]
      simp only [List.nil_append]
      rw [List.filter_cons_of_pos (by simp)]
      rfl
  · rw [votesBy, vote_neutral, List.filter_eq_nil_iff.2]
    · rfl
    · intro a ha
      have hmem := List.mem_filter.1 ha
      intro hca
      have h1 : a.review = rid ∧ a.discord_id = uid := by
        simpa [Bool.and_eq_true, beq_iff_eq] using hca
      have h2 := hmem.2
      rw [h1.1, h1.2] at h2
      simp at h2
  · intro hnone
    rw [vote_neutral, List.filter_eq_self]
    intro a ha
    have := List.filter_eq_nil_iff.1 (by
      have : (tbl.filter fun e => e.review == rid && e.discord_id == uid) = [] := by
        have hmapnil := hnone
        rw [votesBy] at hmapnil
        exact List.map_eq_nil_iff.1 hmapnil
      exact this) a ha
    simp only [Bool.and_eq_true, beq_iff_eq, not_and] at this
    by_cases h1 : a.discord_id = uid
    · by_cases h2 : a.review = rid
      · exact absurd h1 (this h2)
      · simp [h1, h2]
    · simp [h1]
  · intro hrel
    have hno : ∀ e ∈ tbl, (e.review == rid) = false := by
      intro e he
      have := List.filter_eq_nil_iff.1 hrel e he
      simpa using this
    have hanyf : (tbl.any fun e => e.review == rid && e.discord_id == uid) = false := by
      rw [List.any_eq_false]
      intro x hx
      rw [hno x hx]
      simp
    have hup : vote_up tbl rid uid
        = tbl ++ [{ discord_id := uid, vote := true, review := rid }] := by
      rw [vote_up, if_neg (by rw [hanyf]; exact Bool.false_ne_true)]
    have hdown : vote_down (vote_up tbl rid uid) rid uid
        = tbl ++ [{ discord_id := uid, vote := false, review := rid }] := by
      rw [hup, vote_down,
        if_pos (by simp only [List.any_append, List.any_cons, List.any_nil]; simp),
        setVoteFirst_append_left rid uid false _ tbl hanyf]
      simp only [setVoteFirst]
      rw [if_pos (by simp)]
    have hrelapp : ∀ x : ReviewRelevance, x.review = rid →
        relevanceOf (tbl ++ [x]) rid = [x] := by
      intro x hx
      rw [relevanceOf, List.filter_append, List.filter_eq_nil_iff.2 (by
        intro e he
        rw [hno e he]
        simp)]
      rw [List.filter_cons_of_pos (by simp [hx])]
      rfl
    have hneut : ∀ x : ReviewRelevance, x.discord_id = uid → x.review = rid →
        vote_neutral (tbl ++ [x]) rid uid = tbl := by
      intro x h1 h2
      rw [vote_neutral, List.filter_append,
        List.filter_cons_of_neg (by simp [h1, h2]), List.filter_nil,
        List.append_nil, List.filter_eq_self.2]
      intro a ha
      simp [hno a ha]
    refine ⟨?_, ?_, ?_, ?_, ?_, ?_⟩
    · rw [hdown, get_positive_votes,
        hrelapp { discord_id := uid, vote := false, review := rid } rfl]
      rfl
    · rw [hdown, get_negative_votes,
        hrelapp { discord_id := uid, vote := false, review := rid } rfl]
      rfl
    · rw [hdown, hneut { discord_id := uid, vote := false, review := rid } rfl rfl,
        get_positive_votes, hrel]
      rfl
    · rw [hdown, hneut { discord_id := uid, vote := false, review := rid } rfl rfl,
        get_negative_votes, hrel]
      rfl
    · rw [hup, hneut { discord_id := uid, vote := true, review := rid } rfl rfl,
        get_positive_votes, hrel]
      rfl
    · rw [hup, hneut { discord_id := uid, vote := true, review := rid } rfl rfl,
        get_negative_votes, hrel]
      rfl
  · intro rid2 uid2 hne
    refine ⟨?_, ?_, ?_⟩
    · rw [vote_up]
      by_cases h : (tbl.any fun e => e.review == rid && e.discord_id == uid) = true
      · rw [if_pos h, votesBy, votesBy,
          filter_other_setVoteFirst rid uid rid2 uid2 true hne]
      · rw [if_neg h, votesBy, votesBy, List.filter_append]
        have hnew : ¬(({ discord_id := uid, vote := true, review := rid } : ReviewRelevance).review == rid2 && ({ discord_id := uid, vote := true, review := rid } : ReviewRelevance).discord_id == uid2) = true := by
          intro hcc
          rw [Bool.and_eq_true, beq_iff_eq, beq_iff_eq] at hcc
          exact hne ⟨hcc.1.symm, hcc.2.symm⟩
        rw [List.filter_cons_of_neg (by exact hnew), List.filter_nil, List.append_nil]
    · rw [vote_down]
      by_cases h : (tbl.any fun e => e.review == rid && e.discord_id == uid) = true
      · rw [if_pos h, votesBy, votesBy,
          filter_other_setVoteFirst rid uid rid2 uid2 false hne]
      · rw [if_neg h, votesBy, votesBy, List.filter_append]
        have hnew : ¬(({ discord_id := uid, vote := false, review := rid } : ReviewRelevance).review == rid2 && ({ discord_id := uid, vote := false, review := rid } : ReviewRelevance).discord_id == uid2) = true := by
          intro hcc
          rw [Bool.and_eq_true, beq_iff_eq, beq_iff_eq] at hcc
          exact hne ⟨hcc.1.symm, hcc.2.symm⟩
        rw [List.filter_cons_of_neg (by exact hnew), List.filter_nil, List.append_nil]
    · rw [votesBy, votesBy, filter_other_vote_neutral rid uid rid2 uid2 hne]

/-- C5 witness: on a table holding only another voter's vote on
another review, voting up records `[true]` for our voter, and
up-then-down leaves exactly one negative vote on review 1. -/
theorem c5_vote_transitions_witness :
    votesBy (vote_up [{ discord_id := 3, vote := true, review := 2 }] 1 4) 1 4 = [true]
    ∧ get_negative_votes
        (vote_down (vote_up [{ discord_id := 3, vote := true, review := 2 }] 1 4) 1 4) 1
      = 1 :=
  ⟨(c5_vote_transitions [{ discord_id := 3, vote := true, review := 2 }] 1 4
      (by unfold pkNodup; decide)).1,
   ((c5_vote_transitions [{ discord_id := 3, vote := true, review := 2 }] 1 4
      (by unfold pkNodup; decide)).2.2.2.2.1 (by decide)).2.1⟩

/-! ### C1, C2, C3, C8: store operations at concrete inputs -/

/-- C1: evaluating `Review.add` twice for the same author and subject
(with a vote cast in between).  Exactly one review row remains and its
vote entries are cleared, but the row's `tier` column still holds the
FIRST mark (1), not the second (5): the update branch assigns
`review.mark`, which is not the mapped rating column. -/
theorem c1_add_overwrite_keeps_old_tier :
    let db0 : DB :=
      { subjects := [{ id := 0, shortcut := "math", guild_id := 1,
                       category := "c", name := "Math" }],
        reviews := [], relevance := [], nextSubjectId := 1, nextReviewId := 0 }
    let db1 := (Review.add db0 1 7 "math" 1 false "bad" 100).1
    let db1v : DB := { db1 with relevance := vote_up db1.relevance 0 9 }
    let db2 := (Review.add db1v 1 7 "math" 5 false "good" 101).1
    db1v.relevance ≠ []
    ∧ db2.reviews.map (fun r => (r.discord_id, r.subject, r.tier)) = [(7, 0, 1)]
    ∧ db2.reviews.map (fun r => r.tier) ≠ [5]
    ∧ db2.relevance = [] := by
  decide

/-- C2: evaluating `Subject.remove` on a store holding the subject, a
review of it and a vote on that review.  The call reports success and
deletes the subject row, but the review and its vote entry survive:
the bulk delete does not cascade. -/
theorem c2_remove_leaves_reviews_and_votes :
    let db : DB :=
      { subjects := [{ id := 1, shortcut := "math", guild_id := 1,
                       category := "c", name := "Math" }],
        reviews := [{ id := 1, discord_id := 7, anonym := false, subject := 1,
                      tier := 3, text_review := "t", date := 0, mark := none }],
        relevance := [{ discord_id := 9, vote := true, review := 1 }],
        nextSubjectId := 2, nextReviewId := 2 }
    (Subject.remove db 1 "math").2 = true
    ∧ (Subject.remove db 1 "math").1.subjects = []
    ∧ (Subject.remove db 1 "math").1.reviews = db.reviews
    ∧ (Subject.remove db 1 "math").1.relevance = db.relevance := by
  decide

/-- C3: evaluating upsert-then-get.  `Subject.add` stores the shortcut
`CS101` exactly as submitted, but `Subject.get` compares the stored
value against the lowercased probe, so the subject is unreachable
under every casing of its shortcut — including the exact one it was
created with. -/
theorem c3_uppercase_subject_unreachable :
    let db0 : DB :=
      { subjects := [], reviews := [], relevance := [],
        nextSubjectId := 0, nextReviewId := 0 }
    let db1 := Subject.add db0 1 "CS101" "Intro" "CS"
    db1.subjects.map (fun s => s.shortcut) = ["CS101"]
    ∧ Subject.get db1 1 "CS101" = none
    ∧ Subject.get db1 1 "cs101" = none
    ∧ Subject.get db1 1 "Cs101" = none := by
  decide

/-- C8 counterexample: a call with empty text but an unknown subject
fails with `SubjectNotFound`, not `EmptyText` — the subject lookup
runs before the text check, so not every empty-text call fails with
`EmptyText`. -/
theorem c8_empty_text_counterexample :
    let db0 : DB :=
      { subjects := [], reviews := [], relevance := [],
        nextSubjectId := 0, nextReviewId := 0 }
    (add_review db0 1 7 "math" 3 "" false 0).2
        = Except.error AddError.SubjectNotFound
    ∧ (Except.error AddError.SubjectNotFound : Except AddError (Option Review))
        ≠ Except.error AddError.EmptyText := by
  refine ⟨rfl, ?_⟩
  intro h
  injection h with h2
  cases h2

/-- C8 amended: a call with a mark outside `[1, 5]` always fails with
`InvalidTier` and leaves the store untouched; a call with empty text,
a valid mark and an existing subject fails with `EmptyText` and leaves
the store untouched. -/
theorem c8_validation_amended (db : DB) (guild authorId : Nat) (subject : String)
    (mark : Int) (text : String) (anonymous : Bool) (today : Nat) :
    ((mark < 1 ∨ mark > 5) →
      add_review db guild authorId subject mark text anonymous today
        = (db, Except.error AddError.InvalidTier))
    ∧ (1 ≤ mark → mark ≤ 5 → (Subject.get db guild subject).isSome → text = "" →
      add_review db guild authorId subject mark text anonymous today
        = (db, Except.error AddError.EmptyText)) := by
  constructor
  · intro h
    rw [add_review, if_pos h]
  · intro h1 h2 hsome htext
    rw [add_review, if_neg (by omega)]
    cases hs : Subject.get db guild subject with
    | none => rw [hs] at hsome; simp at hsome
    | some s =>
      rw [htext]
      simp

/-- C8 witness: on a store holding subject `math`, a mark of 0 fails
with `InvalidTier` and empty text (with a valid mark) fails with
`EmptyText`, both leaving the store unchanged. -/
theorem c8_validation_amended_witness :
    add_review
        { subjects := [{ id := 0, shortcut := "math", guild_id := 1,
                         category := "c", name := "Math" }],
          reviews := [], relevance := [], nextSubjectId := 1, nextReviewId := 0 }
        1 7 "math" 0 "x" false 0
      = ({ subjects := [{ id := 0, shortcut := "math", guild_id := 1,
                          category := "c", name := "Math" }],
           reviews := [], relevance := [], nextSubjectId := 1, nextReviewId := 0 },
         Except.error AddError.InvalidTier)
    ∧ add_review
        { subjects := [{ id := 0, shortcut := "math", guild_id := 1,
                         category := "c", name := "Math" }],
          reviews := [], relevance := [], nextSubjectId := 1, nextReviewId := 0 }
        1 7 "math" 3 "" false 0
      = ({ subjects := [{ id := 0, shortcut := "math", guild_id := 1,
                          category := "c", name := "Math" }],
           reviews := [], relevance := [], nextSubjectId := 1, nextReviewId := 0 },
         Except.error AddError.EmptyText) :=
  ⟨(c8_validation_amended _ 1 7 "math" 0 "x" false 0).1 (Or.inl (by decide)),
   (c8_validation_amended _ 1 7 "math" 3 "" false 0).2
     (by decide) (by decide) (by decide) rfl⟩

/-! ### C4: uniqueness of reviews under `Review.add` sequences -/


/-- Replacing, by primary key, one review row with a row that agrees
on a field `f` leaves the `f`-column of the relation unchanged. -/
theorem map_update_map {β : Type} (f : Review → β) (l : List Review)
    (hnd : (l.map fun r => r.id).Nodup) (r0 : Review) (hr0 : r0 ∈ l) (r2 : Review)
    (hf : f r2 = f r0) :
    ((l.map fun r => if r.id == r0.id then r2 else r).map f) = l.map f := by
  rw [List.map_map]
  apply List.map_congr_left
  intro r hrm
  simp only [Function.comp]
  by_cases hb : (r.id == r0.id) = true
  · rw [if_pos hb]
    have hre : r = r0 := List.inj_on_of_nodup_map hnd hrm hr0 (beq_iff_eq.1 hb)
    rw [hf, hre]
  · rw [if_neg hb]

/-- One `Review.add` call preserves all three store invariants: the
subjects relation is untouched, review primary keys stay unique and
fresh, and the (author, subject) key of every review row is unchanged
(update branch) or new (insert branch). -/
theorem add_preserves_wf (db : DB) (g a : Nat) (abbr : String) (m : Int) (an : Bool)
    (tx : String) (td : Nat)
    (h1 : subjectsWF db) (h2 : reviewIdsWF db) (h3 : atMostOneReviewPer db) :
    subjectsWF (Review.add db g a abbr m an tx td).1
    ∧ reviewIdsWF (Review.add db g a abbr m an tx td).1
    ∧ atMostOneReviewPer (Review.add db g a abbr m an tx td).1 := by
  rw [subjectsWF] at h1
  rw [reviewIdsWF] at h2
  rw [atMostOneReviewPer] at h3
  cases hget : Subject.get db g abbr with
  | none =>
    simp only [Review.add, hget]
    exact ⟨⟨h1.1, h1.2⟩, ⟨h2.1, h2.2⟩, h3⟩
  | some s =>
    have hsmem : s ∈ db.subjects := List.mem_of_find?_eq_some hget
    have hsprop := List.find?_some hget
    rw [Bool.and_eq_true, beq_iff_eq, beq_iff_eq] at hsprop
    cases hr : (db.reviews.filter (reviewMatches db g a (lowerStr abbr))).head? with
    | none =>
      have hfilnil : db.reviews.filter (reviewMatches db g a (lowerStr abbr)) = [] :=
        List.head?_eq_none_iff.1 hr
      have hnomatch := List.filter_eq_nil_iff.1 hfilnil
      simp only [Review.add, hget, hr]
      unfold subjectsWF reviewIdsWF atMostOneReviewPer
      dsimp only
      refine ⟨⟨h1.1, h1.2⟩, ⟨?_, ?_⟩, ?_⟩
      · rw [List.map_append, List.nodup_append]
        refine ⟨h2.1, List.nodup_singleton _, ?_⟩
        intro x hx hx2
        rw [List.map_singleton, List.mem_singleton] at hx2
        obtain ⟨r, hrm, hrid⟩ := List.mem_map.1 hx
        have := h2.2 r hrm
        rw [hx2] at hrid
        dsimp only at hrid
        omega
      · intro r hrm
        rcases List.mem_append.1 hrm with hmem | hmem
        · have := h2.2 r hmem
          omega
        · rw [List.mem_singleton] at hmem
          rw [hmem]
          dsimp only
          omega
      · rw [List.map_append, List.nodup_append]
        refine ⟨h3, List.nodup_singleton _, ?_⟩
        intro x hx hx2
        rw [List.map_singleton, List.mem_singleton] at hx2
        obtain ⟨r, hrm, hrkey⟩ := List.mem_map.1 hx
        rw [hx2] at hrkey
        dsimp only at hrkey
        have hra : r.discord_id = a := congrArg Prod.fst hrkey
        have hrs : r.subject = s.id := congrArg Prod.snd hrkey
        refine hnomatch r hrm ?_
        rw [reviewMatches, Bool.and_eq_true, Bool.and_eq_true]
        refine ⟨⟨?_, ?_⟩, ?_⟩
        · rw [List.any_eq_true]
          refine ⟨s, hsmem, ?_⟩
          rw [Bool.and_eq_true, beq_iff_eq, beq_iff_eq]
          exact ⟨hrs.symm, hsprop.1⟩
        · rw [beq_iff_eq]
          exact hra
        · rw [List.any_eq_true]
          refine ⟨s, hsmem, ?_⟩
          rw [Bool.and_eq_true, beq_iff_eq, beq_iff_eq]
          exact ⟨hrs.symm, hsprop.2⟩
    | some r0 =>
      have hr0fil : r0 ∈ db.reviews.filter (reviewMatches db g a (lowerStr abbr)) :=
        List.mem_of_mem_head? (by rw [hr]; rfl)
      have hr0 := List.mem_filter.1 hr0fil
      have hmatch := hr0.2
      rw [reviewMatches, Bool.and_eq_true, Bool.and_eq_true] at hmatch
      obtain ⟨⟨hany1, hdis⟩, hany2⟩ := hmatch
      rw [beq_iff_eq] at hdis
      obtain ⟨s1, hs1mem, hs1⟩ := List.any_eq_true.1 hany1
      rw [Bool.and_eq_true, beq_iff_eq, beq_iff_eq] at hs1
      obtain ⟨s2, hs2mem, hs2⟩ := List.any_eq_true.1 hany2
      rw [Bool.and_eq_true, beq_iff_eq, beq_iff_eq] at hs2
      have hs12 : s1 = s2 :=
        List.inj_on_of_nodup_map h1.1 hs1mem hs2mem (by rw [hs1.1, hs2.1])
      have hs2g : s2.guild_id = g := by
        rw [← hs12]
        exact hs1.2
      have hs2s : s2 = s :=
        List.inj_on_of_nodup_map h1.2 hs2mem hsmem
          (by rw [hs2g, hs2.2, hsprop.1, hsprop.2])
      have hr0subj : r0.subject = s.id := by
        rw [← hs2.1, hs2s]
      simp only [Review.add, hget, hr]
      unfold subjectsWF reviewIdsWF atMostOneReviewPer
      dsimp only
      have e1 := map_update_map (fun r => r.id) db.reviews h2.1 r0 hr0.1
        { r0 with mark := some m, anonym := an, text_review := tx, date := td, subject := s.id }
        rfl
      have e2 := map_update_map (fun r => (r.discord_id, r.subject)) db.reviews h2.1 r0 hr0.1
        { r0 with mark := some m, anonym := an, text_review := tx, date := td, subject := s.id }
        (by dsimp only; rw [hr0subj])
      refine ⟨⟨h1.1, h1.2⟩, ⟨?_, ?_⟩, ?_⟩
      · rw [e1]
        exact h2.1
      · intro r hrm
        obtain ⟨r1, hr1m, hr1⟩ := List.mem_map.1 hrm
        rw [← hr1]
        by_cases hb : (r1.id == r0.id) = true
        · rw [if_pos hb]
          exact h2.2 r0 hr0.1
        · rw [if_neg hb]
          exact h2.2 r1 hr1m
      · rw [e2]
        exact h3

/-- The invariants are preserved by any sequence of `Review.add`
calls. -/
theorem applyAdds_preserves_wf (ops : List AddCall) :
    ∀ db : DB, subjectsWF db → reviewIdsWF db → atMostOneReviewPer db →
      subjectsWF (applyAdds db ops) ∧ reviewIdsWF (applyAdds db ops)
        ∧ atMostOneReviewPer (applyAdds db ops) := by
  induction ops with
  | nil => intro db ha hb hc; exact ⟨ha, hb, hc⟩
  | cons op rest ih =>
    intro db ha hb hc
    have h := add_preserves_wf db op.guild op.author op.abbreviation op.mark
      op.anonymous op.text op.today ha hb hc
    exact ih _ h.1 h.2.1 h.2.2

/-- A relation whose image under `f` has no duplicates holds at most
one row per `f`-value. -/
theorem countP_le_one_of_nodup_map {β : Type} [BEq β] [LawfulBEq β] (f : Review → β) :
    ∀ l : List Review, (l.map f).Nodup → ∀ k : β,
      (l.countP fun x => f x == k) ≤ 1 := by
  intro l
  induction l with
  | nil => intro _ k; simp
  | cons e rest ih =>
    intro hnd k
    rw [List.map_cons, List.nodup_cons] at hnd
    by_cases h : (f e == k) = true
    · rw [List.countP_cons_of_pos (fun x => f x == k) rest h]
      have hzero : (rest.countP fun x => f x == k) = 0 := by
        rw [List.countP_eq_zero]
        intro x hx hpx
        refine hnd.1 ?_
        rw [show f e = f x from by rw [beq_iff_eq.1 h, beq_iff_eq.1 hpx]]
        exact List.mem_map_of_mem f hx
      omega
    · rw [List.countP_cons_of_neg (fun x => f x == k) rest h]
      exact ih hnd.2 k

/-- Key uniqueness implies the claim-form statement: at most one
stored review row per (author, subject id). -/
theorem uniqueReview_of_atMostOne (db : DB) (h : atMostOneReviewPer db) :
    UniqueReview db := by
  intro a sid
  rw [← List.countP_eq_length_filter]
  exact countP_le_one_of_nodup_map (fun r => (r.discord_id, r.subject))
    db.reviews h (a, sid)

/-- C4: starting from a well-formed store, any sequence of
`Review.add` calls leaves at most one review per (author, subject). -/
theorem c4_at_most_one_review (db : DB) (ops : List AddCall)
    (h1 : subjectsWF db) (h2 : reviewIdsWF db) (h3 : atMostOneReviewPer db) :
    UniqueReview (applyAdds db ops) :=
  uniqueReview_of_atMostOne _ (applyAdds_preserves_wf ops db h1 h2 h3).2.2

/-- C4 witness: two adds by author 7 for subject `math` (tiers 1 then
5) plus one add by author 8, starting from a store with the single
subject: author 7 ends up with at most one review row for it. -/
theorem c4_at_most_one_review_witness :
    ((applyAdds
        { subjects := [{ id := 0, shortcut := "math", guild_id := 1,
                         category := "c", name := "Math" }],
          reviews := [], relevance := [], nextSubjectId := 1, nextReviewId := 0 }
        [{ guild := 1, author := 7, abbreviation := "math", mark := 1,
           anonymous := false, text := "bad", today := 100 },
         { guild := 1, author := 8, abbreviation := "math", mark := 2,
           anonymous := true, text := "meh", today := 100 },
         { guild := 1, author := 7, abbreviation := "math", mark := 5,
           anonymous := false, text := "good", today := 101 }]).reviews.filter
      fun r => r.discord_id == 7 && r.subject == 0).length ≤ 1 :=
  c4_at_most_one_review
    { subjects := [{ id := 0, shortcut := "math", guild_id := 1,
                     category := "c", name := "Math" }],
      reviews := [], relevance := [], nextSubjectId := 1, nextReviewId := 0 }
    [{ guild := 1, author := 7, abbreviation := "math", mark := 1,
       anonymous := false, text := "bad", today := 100 },
     { guild := 1, author := 8, abbreviation := "math", mark := 2,
       anonymous := true, text := "meh", today := 100 },
     { guild := 1, author := 7, abbreviation := "math", mark := 5,
       anonymous := false, text := "good", today := 101 }]
    (by unfold subjectsWF; exact ⟨by decide, by decide⟩)
    (by unfold reviewIdsWF; exact ⟨by decide, by decide⟩)
    (by unfold atMostOneReviewPer; decide)
    7 0
